import Mathlib

/-!
# MU-CSE-381 Project05: a shell running commands serially or in parallel

A shallow embedding of `src/Project05/sammouka_hw5.cpp` (`split`, `parallel`,
`processCmds`, `flow`, `main`) together with the parts of the C++ stream
library and of the process interface the program relies on.

Text is a list of characters; a byte of the C++ `std::string` is a `Char` here
(the six whitespace characters, the double quote and the backslash are ASCII, so
multi-byte text is not affected by the difference).
-/

namespace Shell

/-! ## Text and streams -/

/-- One word of a command line (`std::string`). -/
abbrev Token := List Char

/-- A command with its arguments (`StrVec`). -/
abbrev StrVec := List Token

/-- The double quote, delimiter of `std::quoted`. -/
def dquote : Char := Char.ofNat 34

/-- The backslash, escape character of `std::quoted`. -/
def backslash : Char := Char.ofNat 92

/-- The line terminator of `getline`. -/
def newline : Char := Char.ofNat 10

/-- The blank that separates the words of a line. -/
def space : Char := Char.ofNat 32

/-- Whitespace of the "C" locale (`std::isspace`): space, `\t`, `\n`, `\v`, `\f`, `\r`. -/
def isspace (c : Char) : Bool :=
  c.toNat = 32 || (9 ≤ c.toNat && c.toNat ≤ 13)

/-- The whitespace skipped by a formatted extraction (`skipws`). -/
def skipws (s : List Char) : List Char := s.dropWhile isspace

/-- Extraction `is >> str` once leading whitespace is gone: the characters up to
the next whitespace (or the end of the text), and what is left of the text. -/
def readWord (s : List Char) : Token × List Char := s.span (fun c => !isspace c)

/-- The delimited branch of `is >> std::quoted(word)`, after the opening
delimiter: characters are appended (whitespace is not skipped) until an
unescaped delimiter is met; an escape character makes the next character
literal. Reaching the end of the text first leaves the stream failed, which is
`none`. -/
def readQuoted : List Char → Token → Option (Token × List Char)
  | [], _ => none
  | c :: rest, word =>
    if c = backslash then
      match rest with
      | [] => none
      | d :: rest2 => readQuoted rest2 (word ++ [d])
    else if c = dquote then some (word, rest)
    else readQuoted rest (word ++ [c])

/-- Extraction `is >> std::quoted(word)` on the unread text `s`: `none` when the
stream fails, else the word and the unread rest. The first non-blank character
decides: a delimiter starts a delimited word, any other character is put back
and an ordinary word is read. -/
def extractQuoted (s : List Char) : Option (Token × List Char) :=
  match skipws s with
  | [] => none
  | c :: rest =>
    if c ≠ dquote then some (readWord (c :: rest))
    else readQuoted rest []

/-- The loop `while (is >> std::quoted(word)) words.push_back(word)` of `split`,
run for at most `fuel` extractions. -/
def splitLoop : Nat → List Char → StrVec → StrVec
  | 0, _, words => words
  | fuel + 1, s, words =>
    match extractQuoted s with
    | none => words
    | some (word, rest) => splitLoop fuel rest (words ++ [word])

/-- Function `split` of the source: the words of a line. Every extraction that
succeeds consumes a character, so `line.length` extractions are enough
(`splitLoop_fuel`). -/
def split (line : List Char) : StrVec := splitLoop line.length line []

/-- A word as it is written on a line: bare, or wrapped in double quotes. -/
inductive Written
  | bare (t : Token)
  | quoted (t : Token)
  deriving DecidableEq, Repr

/-- The characters that stand on the line for a written word. -/
def Written.text : Written → List Char
  | Written.bare t => t
  | Written.quoted t => dquote :: (t ++ [dquote])

/-- The word meant. -/
def Written.value : Written → Token
  | Written.bare t => t
  | Written.quoted t => t

/-- A bare word is not empty and has no whitespace and no double quote; a word
written in quotes has no double quote and no backslash (it may hold whitespace
and may be empty). -/
def Written.wellFormed : Written → Bool
  | Written.bare t => !t.isEmpty && t.all (fun c => !isspace c && c != dquote)
  | Written.quoted t => t.all (fun c => c != dquote && c != backslash)

/-- Written words joined by single spaces. -/
def joinWritten : List Written → List Char
  | [] => []
  | [t] => t.text
  | t :: rest => t.text ++ space :: joinWritten rest

/-- The state of an input stream: the unread text and the two state bits the
program looks at. -/
structure IStream where
  buf : List Char
  eofbit : Bool
  failbit : Bool
  deriving DecidableEq, Repr

/-- A stream positioned at the start of a text (standard input, or a file that
opened). -/
def IStream.ofText (text : List Char) : IStream := ⟨text, false, false⟩

/-- The files of the machine: the content behind a name, `none` when the name
cannot be opened. -/
abbrev Files := Token → Option (List Char)

/-- Construction `std::ifstream file(name)`: a stream on the content of the file,
or a failed stream when the file cannot be opened. -/
def ifstream (fs : Files) (name : Token) : IStream :=
  match fs name with
  | some text => IStream.ofText text
  | none => ⟨[], false, true⟩

/-- The characters before the first newline, and the text after that newline when
there is one. -/
def readLine : List Char → List Char × Option (List Char)
  | [] => ([], none)
  | c :: rest =>
    if c = newline then ([], some rest)
    else ((c :: (readLine rest).1), (readLine rest).2)

/-- Call `std::getline(is, line)`: on a stream that is not good only `failbit` is
set; otherwise characters are taken up to and including the next newline, which
is dropped; running into the end of the text sets `eofbit`, and `failbit` too
when nothing at all was extracted. -/
def getline (is : IStream) : IStream × List Char :=
  if is.eofbit || is.failbit then ({ is with failbit := true }, [])
  else
    match readLine is.buf with
    | (line, some rest) => ({ is with buf := rest }, line)
    | (line, none) => (⟨[], true, line.isEmpty⟩, line)

/-- The lines of a text ended by a newline, and the unterminated rest after the
last newline. -/
def splitLines : List Char → List (List Char) × List Char
  | [] => ([], [])
  | c :: rest =>
    if c = newline then ([] :: (splitLines rest).1, (splitLines rest).2)
    else
      match (splitLines rest).1 with
      | [] => ([], c :: (splitLines rest).2)
      | l :: ls => ((c :: l) :: ls, (splitLines rest).2)

/-- The lines of a text that end with a newline. -/
def completeLines (text : List Char) : List (List Char) := (splitLines text).1

/-- All lines of a text: the newline-terminated ones and, when it is not empty,
the unterminated last one. -/
def textLines (text : List Char) : List (List Char) :=
  (splitLines text).1 ++ (if (splitLines text).2 = [] then [] else [(splitLines text).2])

/-! ## Processes and the output trace -/

/-- What the program does that can be observed, in order: the lines it prints and
the process calls it makes. -/
inductive Event
  | prompt
  | running (text : List Char)
  | exitCode (value : Int)
  | launch (pid : Nat) (argv : StrVec)
  | wait (pid : Nat) (blocked : Bool)
  deriving DecidableEq, Repr

/-- The machine the shell runs on. `pidOf n` is the process identifier given to the
`n`-th child created, `rawStatus pid` the status word `waitpid` stores for
that child, `finishAt pid` the moment the child terminates (children may
terminate in any order), and `report` what `ChildProcess::wait` makes of the
status word. -/
structure Env where
  pidOf : Nat → Nat
  rawStatus : Nat → Int
  finishAt : Nat → Nat
  report : Int → Int

/-- The state the program threads through: the number of children created so far,
the moment reached by the parent, and the trace. -/
structure World where
  forks : Nat
  now : Nat
  trace : List Event
  deriving DecidableEq, Repr

/-- Start of the program: nothing launched, nothing printed. -/
def World.init : World := ⟨0, 0, []⟩

/-- One line (or the prompt) written to `std::cout`. -/
def cout (w : World) (e : Event) : World := { w with trace := w.trace ++ [e] }

/-- Modelled from the spec: `ChildProcess::forkNexec` (ChildProcess.h is not among
the sources). "creates a new child process ... The parent receives and retains
the child's process identifier ... the parent process always receives a valid
handle". -/
def forkNexec (E : Env) (w : World) (argv : StrVec) : World × Nat :=
  ({ w with forks := w.forks + 1, trace := w.trace ++ [Event.launch (E.pidOf w.forks) argv] },
    E.pidOf w.forks)

/-- Call `waitpid(pid, &status, 0)`: blocks until that child has terminated (the
parent moves on to that moment when it is not there yet) and yields the
status word of the child. -/
def waitpid (E : Env) (w : World) (pid : Nat) : World × Int :=
  ({ w with now := max w.now (E.finishAt pid),
            trace := w.trace ++ [Event.wait pid (decide (w.now < E.finishAt pid))] },
    E.rawStatus pid)

/-- Modelled from the spec: `ChildProcess::wait` (ChildProcess.h is not among the
sources). "blocks the calling thread until the specific process referenced by
handle terminates" and returns the status to print; what it makes of the
status word (the spec: "the decoded exit code") is `E.report`, left to the
machine. -/
def ChildProcess.wait (E : Env) (w : World) (pid : Nat) : World × Int :=
  ((waitpid E w pid).1, E.report (waitpid E w pid).2)

/-- Macro `WEXITSTATUS` of the platform: the exit code inside a status word. -/
def WEXITSTATUS (status : Int) : Int := (status / 256) % 256

/-- The words printed after `Running: `, by the loop that puts a blank after every
word but the last: `count` is the loop counter, `size` is `words.size()`. -/
def echoFrom (size : Nat) : Nat → StrVec → List Char
  | _, [] => []
  | count, word :: rest =>
    (if count ≠ size - 1 then word ++ [space] else word) ++ echoFrom size (count + 1) rest

/-- The text of a `Running: ` line. -/
def echo (words : StrVec) : List Char := echoFrom words.length 0 words

/-! ## The program -/

/-- What stops a run short of a result: the step budget of the model ran out, or
the program read a vector element that does not exist. -/
inductive Fault
  | outOfFuel
  | outOfRange (index size : Nat)
  deriving DecidableEq, Repr

deriving instance DecidableEq for Except

/-- The word `#` that starts a comment line. -/
def kwHash : Token := "#".toList

/-- The word `exit`. -/
def kwExit : Token := "exit".toList

/-- The word `SERIAL`. -/
def kwSerial : Token := "SERIAL".toList

/-- The word `PARALLEL`. -/
def kwParallel : Token := "PARALLEL".toList

/-- The reading loop of `parallel` (lines 53-79): each command line is echoed and
launched, and the identifier of the child is appended to `pcs`. `cinEof` is
`std::cin.eof()`, which the loop condition consults. -/
def parallelLoop (E : Env) (cinEof : Bool) :
    Nat → IStream → World → List Nat → Except Fault (World × List Nat)
  | 0, _, _, _ => Except.error Fault.outOfFuel
  | fuel + 1, is, w, pcs =>
    if (getline is).1.failbit || cinEof then Except.ok (w, pcs)
    else
      match split (getline is).2 with
      | [] => parallelLoop E cinEof fuel (getline is).1 w pcs
      | w0 :: args =>
        if w0 = kwHash then parallelLoop E cinEof fuel (getline is).1 w pcs
        else if w0 = kwExit then Except.ok (w, pcs)
        else
          parallelLoop E cinEof fuel (getline is).1
            (forkNexec E (cout w (Event.running (echo (w0 :: args)))) (w0 :: args)).1
            (pcs ++ [(forkNexec E (cout w (Event.running (echo (w0 :: args)))) (w0 :: args)).2])

/-- The second loop of `parallel` (lines 81-85): `waitpid` on every stored
identifier in order, printing the integer `waitpid` stored. -/
def drain (E : Env) : List Nat → World → World
  | [], w => w
  | pc :: pcs, w => drain E pcs (cout (waitpid E w pc).1 (Event.exitCode (waitpid E w pc).2))

/-- Function `parallel` of the source. -/
def parallel (E : Env) (cinEof : Bool) (is : IStream) (w : World) : Except Fault World :=
  match parallelLoop E cinEof (is.buf.length + 2) is w [] with
  | Except.error f => Except.error f
  | Except.ok (w1, pcs) => Except.ok (drain E pcs w1)

/-- The loop of the serial branch of `processCmds` (lines 102-128): each command
line is echoed, launched and waited for, and its exit code printed, before the
next line is read. -/
def serialLoop (E : Env) (cinEof : Bool) : Nat → IStream → World → Except Fault World
  | 0, _, _ => Except.error Fault.outOfFuel
  | fuel + 1, is, w =>
    if (getline is).1.failbit || cinEof then Except.ok w
    else
      match split (getline is).2 with
      | [] => serialLoop E cinEof fuel (getline is).1 w
      | w0 :: args =>
        if w0 = kwHash then serialLoop E cinEof fuel (getline is).1 w
        else if w0 = kwExit then Except.ok w
        else
          let w1 := cout w (Event.running (echo (w0 :: args)))
          let ps := forkNexec E w1 (w0 :: args)
          let r := ChildProcess.wait E ps.1 ps.2
          serialLoop E cinEof fuel (getline is).1 (cout r.1 (Event.exitCode r.2))

/-- Function `processCmds` of the source. -/
def processCmds (E : Env) (cinEof : Bool) (is : IStream) (parMode : Bool) (w : World) :
    Except Fault World :=
  if parMode = false then serialLoop E cinEof (is.buf.length + 2) is w
  else parallel E cinEof is w

/-- Read `words[i]` of a vector: a fault when `i` is not an index of it. -/
def readAt (words : StrVec) (i : Nat) : Except Fault Token :=
  match words.get? i with
  | some word => Except.ok word
  | none => Except.error (Fault.outOfRange i words.length)

/-- Function `flow` of the source: the kind of the line (1 blank or comment,
2 exit, 3 commands run from a file, 0 a command to run), running the file for
kind 3. -/
def flow (E : Env) (fs : Files) (cinEof : Bool) (words : StrVec) (w : World) :
    Except Fault (World × Int) :=
  if words.length = 0 then Except.ok (w, 1)
  else
    match readAt words 0 with
    | Except.error f => Except.error f
    | Except.ok w0 =>
      if w0 = kwHash then Except.ok (w, 1)
      else if w0 = kwExit then Except.ok (w, 2)
      else if w0 = kwSerial || w0 = kwParallel then
        match readAt words 1 with
        | Except.error f => Except.error f
        | Except.ok name =>
          match processCmds E cinEof (ifstream fs name) (if w0 = kwSerial then false else true) w with
          | Except.error f => Except.error f
          | Except.ok w1 => Except.ok (w1, 3)
      else Except.ok (w, 0)

/-- The loop of `main` (lines 173-208) on standard input `cin`. -/
def mainLoop (E : Env) (fs : Files) : Nat → IStream → World → Except Fault World
  | 0, _, _ => Except.error Fault.outOfFuel
  | fuel + 1, cin, w =>
    if (getline cin).1.failbit || (getline cin).1.eofbit then Except.ok (cout w Event.prompt)
    else
      match flow E fs (getline cin).1.eofbit (split (getline cin).2) (cout w Event.prompt) with
      | Except.error f => Except.error f
      | Except.ok (w1, status) =>
        if status = 1 then mainLoop E fs fuel (getline cin).1 w1
        else if status = 2 then Except.ok w1
        else if status = 3 then mainLoop E fs fuel (getline cin).1 w1
        else
          let words := split (getline cin).2
          let w2 := cout w1 (Event.running (echo words))
          let ps := forkNexec E w2 words
          let r := ChildProcess.wait E ps.1 ps.2
          mainLoop E fs fuel (getline cin).1 (cout r.1 (Event.exitCode r.2))

/-- Function `main` of the source, on the text of standard input: the final state
(the program then returns 0). -/
def main (E : Env) (fs : Files) (stdin : List Char) : Except Fault World :=
  mainLoop E fs (stdin.length + 2) (IStream.ofText stdin) World.init

/-! ## Reading a trace -/

/-- The commands launched, in order. -/
def launched : List Event → List StrVec
  | [] => []
  | Event.launch _ argv :: rest => argv :: launched rest
  | _ :: rest => launched rest

/-- The process identifiers handed out at the launches, in order. -/
def launchedPids : List Event → List Nat
  | [] => []
  | Event.launch pid _ :: rest => pid :: launchedPids rest
  | _ :: rest => launchedPids rest

/-- The process identifiers waited on, in order. -/
def waitedPids : List Event → List Nat
  | [] => []
  | Event.wait pid _ :: rest => pid :: waitedPids rest
  | _ :: rest => waitedPids rest

/-- The lines printed (and the prompts), in order. -/
def output : List Event → List Event
  | [] => []
  | Event.launch _ _ :: rest => output rest
  | Event.wait _ _ :: rest => output rest
  | e :: rest => e :: output rest

/-- A test machine: the `n`-th child gets identifier `100 + n`; a child terminates
with exit code `pid % 3`, the later it was created the earlier. -/
def Env.test : Env :=
  { pidOf := fun n => 100 + n
    rawStatus := fun pid => 256 * ((pid % 3 : Nat) : Int)
    finishAt := fun pid => 1000 - pid
    report := WEXITSTATUS }

/-- Test files: `cmds.txt` holds a command, a comment, an empty line, a second
command, `exit` and one more command; `nested.txt` holds one command. -/
def Files.test : Files := fun name =>
  if name = "cmds.txt".toList then
    some ("ls -l\n# note\n\nfalse\nexit\npwd\n".toList)
  else if name = "nested.txt".toList then some ("pwd\n".toList)
  else none

/-! ## The loops, line by line

The loops of the program read their stream one line at a time. The definitions
below give, for a list of lines, the effect the loops have on them; the theorems
`serialLoop_eq`, `parallelLoop_eq` and `mainLoop_eq` show that the loops compute
exactly this on the lines of their stream. -/

/-- The lines a stream still delivers to `getline` without failing. -/
def IStream.pending (is : IStream) : List (List Char) :=
  if is.eofbit || is.failbit then [] else textLines is.buf

/-- The lines a stream still delivers to `getline` without failing and without
reaching the end of the text. -/
def IStream.pendingComplete (is : IStream) : List (List Char) :=
  if is.eofbit || is.failbit then [] else completeLines is.buf

/-- One command run the serial way: echoed, launched, waited for, exit code
printed. -/
def runOne (E : Env) (w : World) (words : StrVec) : World :=
  cout (ChildProcess.wait E (forkNexec E (cout w (Event.running (echo words))) words).1
      (forkNexec E (cout w (Event.running (echo words))) words).2).1
    (Event.exitCode (ChildProcess.wait E (forkNexec E (cout w (Event.running (echo words))) words).1
      (forkNexec E (cout w (Event.running (echo words))) words).2).2)

/-- The serial loop on a list of lines. -/
def serialRun (E : Env) : List (List Char) → World → World
  | [], w => w
  | l :: ls, w =>
    match split l with
    | [] => serialRun E ls w
    | w0 :: args =>
      if w0 = kwHash then serialRun E ls w
      else if w0 = kwExit then w
      else serialRun E ls (runOne E w (w0 :: args))

/-- The reading loop of `parallel` on a list of lines. -/
def parallelRun (E : Env) : List (List Char) → World → List Nat → World × List Nat
  | [], w, pcs => (w, pcs)
  | l :: ls, w, pcs =>
    match split l with
    | [] => parallelRun E ls w pcs
    | w0 :: args =>
      if w0 = kwHash then parallelRun E ls w pcs
      else if w0 = kwExit then (w, pcs)
      else
        parallelRun E ls
          (forkNexec E (cout w (Event.running (echo (w0 :: args)))) (w0 :: args)).1
          (pcs ++ [(forkNexec E (cout w (Event.running (echo (w0 :: args)))) (w0 :: args)).2])

/-- The commands a script launches: the words of its lines before the first line
whose first word is `exit`, those lines left out that have no word or have `#`
as first word. -/
def commandsOf (lines : List (List Char)) : List StrVec :=
  ((lines.map split).takeWhile (fun ws => decide (ws.head? ≠ some kwExit))).filter
    (fun ws => decide (ws ≠ [] ∧ ws.head? ≠ some kwHash))

/-- The four events of one command run the serial way, for the child `pid`. -/
def serialBlock (E : Env) (b : StrVec × Nat × Bool) : List Event :=
  [Event.running (echo b.1), Event.launch b.2.1 b.1, Event.wait b.2.1 b.2.2,
    Event.exitCode (E.report (E.rawStatus b.2.1))]

/-- The trace of commands run the serial way one after the other. -/
def serialTrace (E : Env) : List (StrVec × Nat × Bool) → List Event
  | [] => []
  | b :: bs => serialBlock E b ++ serialTrace E bs

/-- The trace of commands echoed and launched one after the other. -/
def launchTrace : List (StrVec × Nat) → List Event
  | [] => []
  | c :: cs => Event.running (echo c.1) :: Event.launch c.2 c.1 :: launchTrace cs

/-- The trace of children waited for one after the other, the stored status word
printed for each. -/
def drainTrace (E : Env) : List (Nat × Bool) → List Event
  | [] => []
  | p :: ps => Event.wait p.1 p.2 :: Event.exitCode (E.rawStatus p.1) :: drainTrace E ps

/-- Output in strict alternation: for each command its `Running: ` line, then its
`Exit code: ` line. -/
def serialOutput (E : Env) : List (StrVec × Nat) → List Event
  | [] => []
  | c :: cs =>
    Event.running (echo c.1) :: Event.exitCode (E.report (E.rawStatus c.2)) :: serialOutput E cs

/-- The loop of `main` on the list of the lines it gets to handle; after the last
of them one more prompt is printed before the loop ends. -/
def mainRun (E : Env) (fs : Files) : List (List Char) → World → Except Fault World
  | [], w => Except.ok (cout w Event.prompt)
  | l :: ls, w =>
    match flow E fs false (split l) (cout w Event.prompt) with
    | Except.error f => Except.error f
    | Except.ok (w1, status) =>
      if status = 1 then mainRun E fs ls w1
      else if status = 2 then Except.ok w1
      else if status = 3 then mainRun E fs ls w1
      else mainRun E fs ls (runOne E w1 (split l))

/-- The lines of standard input the driver loop handles: the newline-terminated
lines before the first one whose first word is `exit`. -/
def driverLines (stdin : List Char) : List (List Char) :=
  (completeLines stdin).takeWhile (fun l => decide ((split l).head? ≠ some kwExit))

/-- A literal command: a word list whose first word is none of `#`, `exit`,
`SERIAL`, `PARALLEL`. -/
def isLiteral : StrVec → Bool
  | [] => false
  | w0 :: _ => decide (w0 ≠ kwHash ∧ w0 ≠ kwExit ∧ w0 ≠ kwSerial ∧ w0 ≠ kwParallel)

/-- What stands in the trace between the prompt of a line and the next prompt: no
prompt, every identifier launched is waited on, and for a literal command
exactly its echo, its launch, the wait for it and its exit code. -/
def LineSegment (E : Env) (l : List Char) (seg : List Event) : Prop :=
  Event.prompt ∉ seg ∧ waitedPids seg = launchedPids seg ∧
    (isLiteral (split l) = true →
      ∃ (pid : Nat) (blocked : Bool), seg = serialBlock E (split l, pid, blocked))

/-- The trace of the driver loop: a prompt before the segment of each line, and a
last prompt. -/
def promptedTrace : List (List Event) → List Event
  | [] => [Event.prompt]
  | seg :: rest => Event.prompt :: (seg ++ promptedTrace rest)

/-! ## The tokenizer -/

theorem isspace_space : isspace space = true := by decide

theorem isspace_dquote : isspace dquote = false := by decide

theorem skipws_length_le (s : List Char) : (skipws s).length ≤ s.length := by
  induction s with
  | nil => simp [skipws]
  | cons c rest ih =>
    unfold skipws at ih ⊢
    rw [List.dropWhile_cons]
    split
    · exact Nat.le_succ_of_le ih
    · exact Nat.le_refl _

theorem readWord_length_le (s : List Char) : (readWord s).2.length ≤ s.length := by
  unfold readWord
  induction s with
  | nil => simp
  | cons c rest ih =>
    rw [List.span_eq_take_drop] at ih ⊢
    simp only [List.dropWhile_cons]
    split
    · exact Nat.le_succ_of_le ih
    · exact Nat.le_refl _

theorem readQuoted_length_lt_aux (n : Nat) :
    ∀ (s acc word rest : List Char), s.length ≤ n →
      readQuoted s acc = some (word, rest) → rest.length < s.length := by
  induction n with
  | zero =>
    intro s acc word rest hn h
    have hs : s = [] := List.length_eq_zero.mp (Nat.le_zero.mp hn)
    subst hs
    simp [readQuoted] at h
  | succ n ih =>
    intro s acc word rest hn h
    cases s with
    | nil => simp [readQuoted] at h
    | cons c tl =>
      unfold readQuoted at h
      by_cases hb : c = backslash
      · rw [if_pos hb] at h
        cases tl with
        | nil => simp at h
        | cons d tl2 =>
          simp only at h
          have hlen : tl2.length ≤ n := by
            simp only [List.length_cons] at hn
            omega
          have := ih tl2 (acc ++ [d]) word rest hlen h
          simp only [List.length_cons]
          omega
      · rw [if_neg hb] at h
        by_cases hq : c = dquote
        · rw [if_pos hq] at h
          simp only [Option.some.injEq, Prod.mk.injEq] at h
          rw [← h.2]
          simp
        · rw [if_neg hq] at h
          have hlen : tl.length ≤ n := by
            simp only [List.length_cons] at hn
            omega
          have := ih tl (acc ++ [c]) word rest hlen h
          simp only [List.length_cons]
          omega

theorem readQuoted_length_lt (s acc word rest : List Char)
    (h : readQuoted s acc = some (word, rest)) : rest.length < s.length :=
  readQuoted_length_lt_aux s.length s acc word rest (Nat.le_refl _) h

theorem extractQuoted_length_lt (s word rest : List Char)
    (h : extractQuoted s = some (word, rest)) : rest.length < s.length := by
  unfold extractQuoted at h
  have hskip := skipws_length_le s
  cases hk : skipws s with
  | nil => rw [hk] at h; simp at h
  | cons c tl =>
    rw [hk] at h hskip
    simp only at h
    by_cases hq : c = dquote
    · rw [if_neg (by simpa using hq)] at h
      have := readQuoted_length_lt tl [] word rest h
      simp only [List.length_cons] at hskip
      omega
    · rw [if_pos hq] at h
      simp only [Option.some.injEq] at h
      have hw : (readWord (c :: tl)).2 = rest := by rw [h]
      have hc : isspace c = false := by
        have hhead := List.head_dropWhile_not isspace s
        unfold skipws at hk
        simp only [hk] at hhead
        simpa using hhead
      have hle := readWord_length_le tl
      have hstep : (readWord (c :: tl)).2 = (readWord tl).2 := by
        unfold readWord
        rw [List.span_eq_take_drop, List.span_eq_take_drop]
        simp [List.dropWhile_cons, hc]
      rw [hstep] at hw
      rw [← hw]
      simp only [List.length_cons] at hskip
      omega

theorem splitLoop_nil (n : Nat) (words : StrVec) : splitLoop n [] words = words := by
  cases n <;> simp [splitLoop, extractQuoted, skipws]

theorem splitLoop_fuel_aux (n : Nat) :
    ∀ (m : Nat) (s : List Char) (words : StrVec), s.length ≤ n → s.length ≤ m →
      splitLoop n s words = splitLoop m s words := by
  induction n with
  | zero =>
    intro m s words hn _
    have hs : s = [] := List.length_eq_zero.mp (Nat.le_zero.mp hn)
    subst hs
    rw [splitLoop_nil, splitLoop_nil]
  | succ n ih =>
    intro m s words hn hm
    cases m with
    | zero =>
      have hs : s = [] := List.length_eq_zero.mp (Nat.le_zero.mp hm)
      subst hs
      rw [splitLoop_nil, splitLoop_nil]
    | succ m =>
      simp only [splitLoop]
      cases hx : extractQuoted s with
      | none => rfl
      | some r =>
        obtain ⟨word, rest⟩ := r
        have hlt := extractQuoted_length_lt s word rest hx
        exact ih m rest _ (by omega) (by omega)

/-- More fuel than the length of the text never changes the result of the loop of
`split`: the loop stops by itself. -/
theorem splitLoop_fuel (n : Nat) (line : List Char) (h : line.length ≤ n) :
    splitLoop n line [] = split line :=
  splitLoop_fuel_aux n line.length line [] h (Nat.le_refl _)

theorem readWord_bare (t tail : List Char)
    (ht : t.all (fun c => !isspace c && c != dquote) = true)
    (htail : tail = [] ∨ ∃ rest, tail = space :: rest) :
    readWord (t ++ tail) = (t, tail) := by
  unfold readWord
  induction t with
  | nil =>
    rcases htail with h | ⟨rest, h⟩
    · subst h; rfl
    · subst h
      simp [List.span_eq_take_drop, isspace_space]
  | cons c tl ih =>
    simp only [List.all_cons, Bool.and_eq_true] at ht
    have hc : isspace c = false := by simpa using ht.1.1
    have := ih ht.2
    rw [List.span_eq_take_drop] at this ⊢
    simp only [Prod.mk.injEq] at this
    simp [List.takeWhile_cons, List.dropWhile_cons, hc, this.1, this.2]

theorem readQuoted_cons (c : Char) (rest acc : List Char) (hb : c ≠ backslash) :
    readQuoted (c :: rest) acc
      = if c = dquote then some (acc, rest) else readQuoted rest (acc ++ [c]) := by
  rw [readQuoted.eq_def]
  simp only [if_neg hb]

theorem readQuoted_closed (t : List Char) :
    ∀ (acc tail : List Char), t.all (fun c => c != dquote && c != backslash) = true →
      readQuoted (t ++ dquote :: tail) acc = some (acc ++ t, tail) := by
  induction t with
  | nil =>
    intro acc tail _
    have : dquote ≠ backslash := by decide
    rw [List.nil_append, readQuoted_cons _ _ _ this]
    simp
  | cons c tl ih =>
    intro acc tail ht
    simp only [List.all_cons, Bool.and_eq_true] at ht
    have hq : c ≠ dquote := by simpa using ht.1.1
    have hb : c ≠ backslash := by simpa using ht.1.2
    rw [List.cons_append, readQuoted_cons _ _ _ hb, if_neg hq, ih _ _ ht.2]
    simp

theorem extractQuoted_written (t : Written) (tail : List Char) (ht : t.wellFormed = true)
    (htail : tail = [] ∨ ∃ rest, tail = space :: rest) :
    extractQuoted (t.text ++ tail) = some (t.value, tail) := by
  cases t with
  | bare t =>
    simp only [Written.wellFormed, Bool.and_eq_true] at ht
    cases t with
    | nil => simp at ht
    | cons c tl =>
      have hall := ht.2
      have hc := hall
      simp only [List.all_cons, Bool.and_eq_true] at hc
      have hsp : isspace c = false := by simpa using hc.1.1
      have hq : c ≠ dquote := by simpa using hc.1.2
      have hw := readWord_bare (c :: tl) tail hall htail
      simp only [Written.text, Written.value, extractQuoted, skipws, List.cons_append] at hw ⊢
      rw [List.dropWhile_cons, hsp]
      simp only [Bool.false_eq_true, if_false]
      rw [if_pos hq, hw]
  | quoted t =>
    simp only [Written.wellFormed] at ht
    simp only [Written.text, Written.value, extractQuoted, skipws, List.cons_append]
    rw [List.dropWhile_cons, isspace_dquote]
    simp only [Bool.false_eq_true, if_false, ne_eq, not_true_eq_false]
    rw [List.append_assoc]
    simp only [List.singleton_append]
    rw [readQuoted_closed t [] tail ht]
    simp

theorem extractQuoted_space (s : List Char) : extractQuoted (space :: s) = extractQuoted s := by
  simp [extractQuoted, skipws, List.dropWhile_cons, isspace_space]

theorem splitLoop_space (n : Nat) (s : List Char) (words : StrVec) :
    splitLoop n (space :: s) words = splitLoop n s words := by
  cases n with
  | zero => rfl
  | succ n => simp only [splitLoop, extractQuoted_space]

theorem joinWritten_cons_cons (t u : Written) (rest : List Written) :
    joinWritten (t :: u :: rest) = t.text ++ space :: joinWritten (u :: rest) := rfl

theorem splitLoop_joinWritten (ts : List Written) :
    ∀ (n : Nat) (words : StrVec), (∀ t ∈ ts, t.wellFormed = true) →
      (joinWritten ts).length ≤ n →
      splitLoop n (joinWritten ts) words = words ++ ts.map Written.value := by
  induction ts with
  | nil =>
    intro n words _ _
    simp [joinWritten, splitLoop_nil]
  | cons t rest ih =>
    intro n words hwf hn
    have ht : t.wellFormed = true := hwf t (List.mem_cons_self _ _)
    have hrest : ∀ u ∈ rest, u.wellFormed = true := fun u hu => hwf u (List.mem_cons_of_mem _ hu)
    cases rest with
    | nil =>
      have hx := extractQuoted_written t [] ht (Or.inl rfl)
      simp only [List.append_nil] at hx
      simp only [joinWritten] at hn ⊢
      cases n with
      | zero =>
        have hlt := extractQuoted_length_lt _ _ _ hx
        omega
      | succ n =>
        simp only [splitLoop, hx, splitLoop_nil, List.map_cons, List.map_nil]
    | cons u rest2 =>
      rw [joinWritten_cons_cons] at hn ⊢
      have hx := extractQuoted_written t (space :: joinWritten (u :: rest2)) ht
        (Or.inr ⟨_, rfl⟩)
      cases n with
      | zero =>
        have hlt := extractQuoted_length_lt _ _ _ hx
        omega
      | succ n =>
        have hlt := extractQuoted_length_lt _ _ _ hx
        simp only [splitLoop, hx, splitLoop_space]
        rw [ih n (words ++ [t.value]) hrest]
        · simp
        · simp only [List.length_cons] at hlt
          omega

theorem readQuoted_unclosed_aux (n : Nat) :
    ∀ (s acc : List Char), s.length ≤ n → dquote ∉ s → readQuoted s acc = none := by
  induction n with
  | zero =>
    intro s acc hn _
    have hs : s = [] := List.length_eq_zero.mp (Nat.le_zero.mp hn)
    subst hs
    rfl
  | succ n ih =>
    intro s acc hn hq
    cases s with
    | nil => rfl
    | cons c tl =>
      simp only [List.mem_cons, not_or] at hq
      simp only [List.length_cons] at hn
      by_cases hb : c = backslash
      · cases tl with
        | nil => rw [readQuoted.eq_def]; simp [hb]
        | cons d tl2 =>
          rw [readQuoted.eq_def]
          simp only [hb, if_true]
          have hq2 : dquote ∉ tl2 := fun h => hq.2 (List.mem_cons_of_mem _ h)
          simp only [List.length_cons] at hn
          exact ih tl2 _ (by omega) hq2
      · rw [readQuoted_cons _ _ _ hb, if_neg (fun h => hq.1 h.symm)]
        exact ih tl _ (by omega) hq.2

theorem readQuoted_unclosed (s acc : List Char) (h : dquote ∉ s) : readQuoted s acc = none :=
  readQuoted_unclosed_aux s.length s acc (Nat.le_refl _) h

theorem extractQuoted_unclosed (s : List Char) (h : dquote ∉ s) :
    extractQuoted (dquote :: s) = none := by
  simp only [extractQuoted, skipws]
  rw [List.dropWhile_cons, isspace_dquote]
  simp only [Bool.false_eq_true, if_false, ne_eq, not_true_eq_false]
  exact readQuoted_unclosed s [] h

theorem splitLoop_unclosed (n : Nat) (s : List Char) (words : StrVec) (h : dquote ∉ s) :
    splitLoop n (dquote :: s) words = words := by
  cases n with
  | zero => rfl
  | succ n => simp only [splitLoop, extractQuoted_unclosed s h]

theorem splitLoop_joinWritten_tail (ts : List Written) :
    ∀ (n : Nat) (words : StrVec) (tail : List Char), (∀ t ∈ ts, t.wellFormed = true) →
      (joinWritten ts ++ space :: tail).length ≤ n →
      splitLoop n (joinWritten ts ++ space :: tail) words
        = splitLoop tail.length tail (words ++ ts.map Written.value) := by
  induction ts with
  | nil =>
    intro n words tail _ hn
    simp only [joinWritten, List.nil_append, List.length_cons] at hn
    simp only [joinWritten, List.nil_append, List.map_nil, List.append_nil, splitLoop_space]
    exact splitLoop_fuel_aux n tail.length tail words (by omega) (Nat.le_refl _)
  | cons t rest ih =>
    intro n words tail hwf hn
    have ht : t.wellFormed = true := hwf t (List.mem_cons_self _ _)
    have hrest : ∀ u ∈ rest, u.wellFormed = true := fun u hu => hwf u (List.mem_cons_of_mem _ hu)
    cases rest with
    | nil =>
      have hx := extractQuoted_written t (space :: tail) ht (Or.inr ⟨_, rfl⟩)
      have hlt := extractQuoted_length_lt _ _ _ hx
      simp only [joinWritten] at hn ⊢
      cases n with
      | zero => omega
      | succ n =>
        simp only [splitLoop, hx, splitLoop_space, List.map_cons, List.map_nil]
        simp only [List.length_cons] at hlt
        exact splitLoop_fuel_aux n tail.length tail _ (by omega) (Nat.le_refl _)
    | cons u rest2 =>
      rw [joinWritten_cons_cons, List.append_assoc, List.cons_append] at hn ⊢
      have hx := extractQuoted_written t
        (space :: (joinWritten (u :: rest2) ++ space :: tail)) ht (Or.inr ⟨_, rfl⟩)
      have hlt := extractQuoted_length_lt _ _ _ hx
      cases n with
      | zero => omega
      | succ n =>
        simp only [splitLoop, hx, splitLoop_space]
        rw [ih n (words ++ [t.value]) tail hrest]
        · simp
        · simp only [List.length_cons] at hlt
          omega

/-- C6: `split` undoes quoting-and-joining. For every list of written words, each
either bare (not empty, no whitespace, no double quote) or wrapped in double
quotes and free of double quotes and backslashes, `split` of the words joined
by single spaces is the list of the words meant, quotes stripped and inner
whitespace kept. -/
theorem split_joinWritten (ts : List Written) (h : ∀ t ∈ ts, t.wellFormed = true) :
    split (joinWritten ts) = ts.map Written.value := by
  unfold split
  rw [splitLoop_joinWritten ts _ [] h (Nat.le_refl _)]
  rfl

/-- Witness of C6: the line `ls -l "my file.txt"` gives the three words `ls`, `-l`
and `my file.txt`. -/
theorem split_joinWritten_witness :
    (∀ t ∈ [Written.bare "ls".toList, Written.bare "-l".toList,
        Written.quoted "my file.txt".toList], t.wellFormed = true) ∧
    joinWritten [Written.bare "ls".toList, Written.bare "-l".toList,
        Written.quoted "my file.txt".toList]
      = "ls -l ".toList ++ [dquote] ++ "my file.txt".toList ++ [dquote] ∧
    split (joinWritten [Written.bare "ls".toList, Written.bare "-l".toList,
        Written.quoted "my file.txt".toList])
      = ["ls".toList, "-l".toList, "my file.txt".toList] :=
  ⟨by decide, by decide,
    split_joinWritten [Written.bare "ls".toList, Written.bare "-l".toList,
      Written.quoted "my file.txt".toList] (by decide)⟩

/-- C8, as stated, fails: on the line `echo "abc`, whose second word opens with a
double quote that is never closed, `split` returns the single word `echo`; no
returned word holds a character of `abc`. -/
theorem split_unclosed_quote_counterexample :
    split ("echo ".toList ++ [dquote] ++ "abc".toList) = ["echo".toList] ∧
    ¬ ∃ word ∈ split ("echo ".toList ++ [dquote] ++ "abc".toList),
        'a' ∈ word ∨ 'b' ∈ word := by
  decide

/-- C8, amended: `split` returns a word list on every line (its loop stops by itself
within `line.length` extractions, whatever larger budget it is given), and a
word that opens with a double quote that is never closed is dropped together
with everything after the quote, the words before it being returned. -/
theorem split_unclosed_quote_dropped (ts : List Written) (s : List Char)
    (hts : ∀ t ∈ ts, t.wellFormed = true) (hs : dquote ∉ s) :
    split (joinWritten ts ++ space :: dquote :: s) = ts.map Written.value ∧
    split (dquote :: s) = [] ∧
    ∀ (line : List Char) (n : Nat), line.length ≤ n → splitLoop n line [] = split line := by
  refine ⟨?_, ?_, fun line n hn => splitLoop_fuel n line hn⟩
  · unfold split
    rw [splitLoop_joinWritten_tail ts _ [] (dquote :: s) hts (Nat.le_refl _)]
    rw [splitLoop_unclosed _ s _ hs]
    rfl
  · unfold split
    exact splitLoop_unclosed _ s [] hs

/-- Witness of C8 amended: on `echo "abc` the word `echo` is returned alone. -/
theorem split_unclosed_quote_dropped_witness :
    (∀ t ∈ [Written.bare "echo".toList], t.wellFormed = true) ∧ dquote ∉ "abc".toList ∧
    split (joinWritten [Written.bare "echo".toList] ++ space :: dquote :: "abc".toList)
      = ["echo".toList] :=
  ⟨by decide, by decide,
    (split_unclosed_quote_dropped [Written.bare "echo".toList] "abc".toList
      (by decide) (by decide)).1⟩

/-! ## Streams and lines -/

theorem readLine_some (buf : List Char) :
    ∀ (l rest : List Char), readLine buf = (l, some rest) →
      splitLines buf = (l :: (splitLines rest).1, (splitLines rest).2) := by
  induction buf with
  | nil => intro l rest h; simp [readLine] at h
  | cons c tl ih =>
    intro l rest h
    by_cases hc : c = newline
    · simp only [readLine, if_pos hc, Prod.mk.injEq, Option.some.injEq] at h
      simp only [splitLines, if_pos hc, ← h.1, ← h.2]
    · simp only [readLine, if_neg hc, Prod.mk.injEq] at h
      have hr : readLine tl = ((readLine tl).1, some rest) := by
        rw [← h.2]
      have := ih _ _ hr
      simp only [splitLines, if_neg hc, this, ← h.1]

theorem readLine_none (buf : List Char) :
    ∀ (l : List Char), readLine buf = (l, none) → splitLines buf = ([], l) := by
  induction buf with
  | nil => intro l h; simp only [readLine, Prod.mk.injEq] at h; simp [splitLines, ← h.1]
  | cons c tl ih =>
    intro l h
    by_cases hc : c = newline
    · simp [readLine, if_pos hc] at h
    · simp only [readLine, if_neg hc, Prod.mk.injEq] at h
      have hr : readLine tl = ((readLine tl).1, none) := by
        rw [← h.2]
      have := ih _ hr
      simp only [splitLines, if_neg hc, this, ← h.1]

theorem splitLines_length (buf : List Char) :
    (splitLines buf).1.length + (splitLines buf).2.length ≤ buf.length := by
  induction buf with
  | nil => simp [splitLines]
  | cons c tl ih =>
    by_cases hc : c = newline
    · simp only [splitLines, if_pos hc, List.length_cons]
      omega
    · simp only [splitLines, if_neg hc]
      cases hs : (splitLines tl).1 with
      | nil =>
        rw [hs] at ih
        simp only [List.length_cons, List.length_nil] at ih ⊢
        omega
      | cons l ls =>
        rw [hs] at ih
        simp only [List.length_cons] at ih ⊢
        omega

theorem completeLines_length (buf : List Char) : (completeLines buf).length ≤ buf.length := by
  have := splitLines_length buf
  unfold completeLines
  omega

theorem textLines_length (buf : List Char) : (textLines buf).length ≤ buf.length := by
  have := splitLines_length buf
  unfold textLines
  by_cases h : (splitLines buf).2 = []
  · simp only [h, if_true, List.append_nil]
    omega
  · have hpos : 0 < (splitLines buf).2.length := List.length_pos.mpr h
    simp only [h, if_false, List.length_append, List.length_cons, List.length_nil]
    omega

theorem pending_length (is : IStream) : is.pending.length ≤ is.buf.length := by
  unfold IStream.pending
  split
  · simp
  · exact textLines_length _

theorem pendingComplete_length (is : IStream) : is.pendingComplete.length ≤ is.buf.length := by
  unfold IStream.pendingComplete
  split
  · simp
  · exact completeLines_length _

theorem getline_pending_nil (is : IStream) (h : is.pending = []) :
    (getline is).1.failbit = true := by
  unfold IStream.pending at h
  unfold getline
  by_cases hbad : (is.eofbit || is.failbit) = true
  · simp only [hbad, if_true]
  · rw [if_neg hbad] at h ⊢
    cases hr : readLine is.buf with
    | mk l o =>
      cases o with
      | some rest =>
        have := readLine_some _ _ _ hr
        simp [textLines, this] at h
      | none =>
        have := readLine_none _ _ hr
        simp only [textLines, this, List.nil_append] at h
        by_cases hl : l = []
        · simp [hl]
        · simp [hl] at h

theorem getline_pending_cons (is : IStream) (l : List Char) (ls : List (List Char))
    (h : is.pending = l :: ls) :
    (getline is).2 = l ∧ (getline is).1.failbit = false ∧ (getline is).1.pending = ls := by
  unfold IStream.pending at h
  by_cases hbad : (is.eofbit || is.failbit) = true
  · simp [hbad] at h
  · rw [if_neg hbad] at h
    unfold getline
    rw [if_neg hbad]
    have hflags : is.eofbit = false ∧ is.failbit = false := by
      simpa using hbad
    cases hr : readLine is.buf with
    | mk l2 o =>
      cases o with
      | some rest =>
        have hsl := readLine_some _ _ _ hr
        have ht : textLines is.buf = l2 :: textLines rest := by
          simp only [textLines, hsl, List.cons_append]
        rw [ht] at h
        simp only [List.cons.injEq] at h
        refine ⟨h.1, hflags.2, ?_⟩
        simp only [IStream.pending, hflags.1, hflags.2, Bool.or_self, Bool.false_eq_true,
          if_false]
        exact h.2
      | none =>
        have hsl := readLine_none _ _ hr
        simp only [textLines, hsl, List.nil_append] at h
        by_cases hl : l2 = []
        · simp [hl] at h
        · simp only [hl, if_false, List.cons.injEq] at h
          refine ⟨h.1, by simpa using hl, ?_⟩
          simp only [IStream.pending, Bool.true_or, if_true]
          exact h.2

theorem getline_pendingComplete_nil (is : IStream) (h : is.pendingComplete = []) :
    ((getline is).1.failbit || (getline is).1.eofbit) = true := by
  unfold IStream.pendingComplete at h
  unfold getline
  by_cases hbad : (is.eofbit || is.failbit) = true
  · simp only [hbad, if_true, Bool.true_or]
  · rw [if_neg hbad] at h ⊢
    cases hr : readLine is.buf with
    | mk l o =>
      cases o with
      | some rest =>
        have := readLine_some _ _ _ hr
        simp [completeLines, this] at h
      | none => simp

theorem getline_pendingComplete_cons (is : IStream) (l : List Char) (ls : List (List Char))
    (h : is.pendingComplete = l :: ls) :
    (getline is).2 = l ∧ (getline is).1.failbit = false ∧ (getline is).1.eofbit = false ∧
      (getline is).1.pendingComplete = ls := by
  unfold IStream.pendingComplete at h
  by_cases hbad : (is.eofbit || is.failbit) = true
  · simp [hbad] at h
  · rw [if_neg hbad] at h
    unfold getline
    rw [if_neg hbad]
    have hflags : is.eofbit = false ∧ is.failbit = false := by
      simpa using hbad
    cases hr : readLine is.buf with
    | mk l2 o =>
      cases o with
      | some rest =>
        have hsl := readLine_some _ _ _ hr
        simp only [completeLines, hsl, List.cons.injEq] at h
        refine ⟨h.1, hflags.2, hflags.1, ?_⟩
        simp only [IStream.pendingComplete, hflags.1, hflags.2, Bool.or_self,
          Bool.false_eq_true, if_false, completeLines]
        exact h.2
      | none =>
        have hsl := readLine_none _ _ hr
        simp [completeLines, hsl] at h

/-! ## The loops compute the line-by-line runs -/

theorem serialLoop_eq (E : Env) (cinEof : Bool) (fuel : Nat) :
    ∀ (is : IStream) (w : World), is.pending.length < fuel →
      serialLoop E cinEof fuel is w
        = Except.ok (serialRun E (if cinEof then [] else is.pending) w) := by
  induction fuel with
  | zero => intro is w h; omega
  | succ fuel ih =>
    intro is w h
    cases cinEof with
    | true => simp [serialLoop, serialRun]
    | false =>
      simp only [Bool.false_eq_true, if_false] at ih ⊢
      cases hp : is.pending with
      | nil =>
        have hf := getline_pending_nil is hp
        simp [serialLoop, hf, serialRun]
      | cons l ls =>
        obtain ⟨hl, hf, hrest⟩ := getline_pending_cons is l ls hp
        have hlen : (getline is).1.pending.length < fuel := by
          rw [hrest]
          rw [hp] at h
          simp only [List.length_cons] at h
          omega
        simp only [serialLoop, hf, Bool.or_self, Bool.false_eq_true, if_false, hl]
        rw [serialRun]
        cases hs : split l with
        | nil => simp only [ih _ w hlen, hrest]
        | cons w0 args =>
          simp only
          by_cases h1 : w0 = kwHash
          · simp only [if_pos h1, ih _ w hlen, hrest]
          · simp only [if_neg h1]
            by_cases h2 : w0 = kwExit
            · simp only [if_pos h2]
            · simp only [if_neg h2, ih _ _ hlen, hrest, runOne]

theorem parallelLoop_eq (E : Env) (cinEof : Bool) (fuel : Nat) :
    ∀ (is : IStream) (w : World) (pcs : List Nat), is.pending.length < fuel →
      parallelLoop E cinEof fuel is w pcs
        = Except.ok (parallelRun E (if cinEof then [] else is.pending) w pcs) := by
  induction fuel with
  | zero => intro is w pcs h; omega
  | succ fuel ih =>
    intro is w pcs h
    cases cinEof with
    | true => simp [parallelLoop, parallelRun]
    | false =>
      simp only [Bool.false_eq_true, if_false] at ih ⊢
      cases hp : is.pending with
      | nil =>
        have hf := getline_pending_nil is hp
        simp [parallelLoop, hf, parallelRun]
      | cons l ls =>
        obtain ⟨hl, hf, hrest⟩ := getline_pending_cons is l ls hp
        have hlen : (getline is).1.pending.length < fuel := by
          rw [hrest]
          rw [hp] at h
          simp only [List.length_cons] at h
          omega
        simp only [parallelLoop, hf, Bool.or_self, Bool.false_eq_true, if_false, hl]
        rw [parallelRun]
        cases hs : split l with
        | nil => simp only [ih _ w pcs hlen, hrest]
        | cons w0 args =>
          simp only
          by_cases h1 : w0 = kwHash
          · simp only [if_pos h1, ih _ w pcs hlen, hrest]
          · simp only [if_neg h1]
            by_cases h2 : w0 = kwExit
            · simp only [if_pos h2]
            · simp only [if_neg h2, ih _ _ _ hlen, hrest]

theorem processCmds_serial_eq (E : Env) (cinEof : Bool) (is : IStream) (w : World) :
    processCmds E cinEof is false w
      = Except.ok (serialRun E (if cinEof then [] else is.pending) w) := by
  have hlen : is.pending.length < is.buf.length + 2 := by
    have := pending_length is
    omega
  simp only [processCmds, if_true]
  exact serialLoop_eq E cinEof _ is w hlen

theorem parallel_eq (E : Env) (cinEof : Bool) (is : IStream) (w : World) :
    parallel E cinEof is w
      = Except.ok (drain E (parallelRun E (if cinEof then [] else is.pending) w []).2
          (parallelRun E (if cinEof then [] else is.pending) w []).1) := by
  have hlen : is.pending.length < is.buf.length + 2 := by
    have := pending_length is
    omega
  simp only [parallel, parallelLoop_eq E cinEof _ is w [] hlen]

theorem processCmds_parallel_eq (E : Env) (cinEof : Bool) (is : IStream) (w : World) :
    processCmds E cinEof is true w
      = Except.ok (drain E (parallelRun E (if cinEof then [] else is.pending) w []).2
          (parallelRun E (if cinEof then [] else is.pending) w []).1) := by
  simp only [processCmds, Bool.true_eq_false, if_false]
  exact parallel_eq E cinEof is w

theorem pending_ofText (text : List Char) : (IStream.ofText text).pending = textLines text := by
  simp [IStream.pending, IStream.ofText]

/-! ## The shape of the traces -/

theorem commandsOf_nil : commandsOf [] = [] := rfl

theorem commandsOf_cons_skip (l : List Char) (ls : List (List Char))
    (h : split l = [] ∨ (split l).head? = some kwHash) :
    commandsOf (l :: ls) = commandsOf ls := by
  have hne : kwHash ≠ kwExit := by decide
  rcases h with h | h
  · simp [commandsOf, List.takeWhile_cons, h]
  · have h2 : (split l).head? ≠ some kwExit := by
      rw [h]
      simpa using hne
    simp [commandsOf, List.takeWhile_cons, List.filter_cons, h, hne]

theorem commandsOf_cons_exit (l : List Char) (ls : List (List Char))
    (h : (split l).head? = some kwExit) : commandsOf (l :: ls) = [] := by
  simp [commandsOf, List.takeWhile_cons, h]

theorem commandsOf_cons_command (l : List Char) (ls : List (List Char)) (w0 : Token)
    (args : StrVec) (h : split l = w0 :: args) (h1 : w0 ≠ kwHash) (h2 : w0 ≠ kwExit) :
    commandsOf (l :: ls) = (w0 :: args) :: commandsOf ls := by
  simp [commandsOf, List.takeWhile_cons, h, h1, h2, List.filter_cons]

theorem runOne_trace (E : Env) (w : World) (c : StrVec) :
    (runOne E w c).trace
      = w.trace ++ serialBlock E (c, E.pidOf w.forks, decide (w.now < E.finishAt (E.pidOf w.forks))) := by
  simp [runOne, serialBlock, ChildProcess.wait, waitpid, forkNexec, cout]

theorem runOne_forks (E : Env) (w : World) (c : StrVec) :
    (runOne E w c).forks = w.forks + 1 := by
  simp [runOne, ChildProcess.wait, waitpid, forkNexec, cout]

theorem serialRun_shape (E : Env) (lines : List (List Char)) :
    ∀ w : World, ∃ bl : List (StrVec × Nat × Bool),
      (serialRun E lines w).trace = w.trace ++ serialTrace E bl ∧
      bl.map (fun b => b.1) = commandsOf lines ∧
      bl.map (fun b => b.2.1) = (List.range' w.forks bl.length).map E.pidOf ∧
      (serialRun E lines w).forks = w.forks + bl.length := by
  induction lines with
  | nil => intro w; exact ⟨[], by simp [serialRun, serialTrace, commandsOf_nil]⟩
  | cons l ls ih =>
    intro w
    rw [serialRun]
    cases hs : split l with
    | nil =>
      simp only
      rw [commandsOf_cons_skip l ls (Or.inl hs)]
      exact ih w
    | cons w0 args =>
      simp only
      by_cases h1 : w0 = kwHash
      · rw [if_pos h1, commandsOf_cons_skip l ls (Or.inr (by simp [hs, h1]))]
        exact ih w
      · rw [if_neg h1]
        by_cases h2 : w0 = kwExit
        · rw [if_pos h2, commandsOf_cons_exit l ls (by simp [hs, h2])]
          exact ⟨[], by simp [serialTrace]⟩
        · rw [if_neg h2, commandsOf_cons_command l ls w0 args hs h1 h2]
          obtain ⟨bl, htr, hcmd, hpid, hforks⟩ := ih (runOne E w (w0 :: args))
          refine ⟨(w0 :: args, E.pidOf w.forks,
            decide (w.now < E.finishAt (E.pidOf w.forks))) :: bl, ?_, ?_, ?_, ?_⟩
          · rw [htr, runOne_trace, serialTrace, List.append_assoc]
          · simp [hcmd]
          · rw [runOne_forks] at hpid
            simp [List.range'_succ, hpid]
          · rw [hforks, runOne_forks]
            simp only [List.length_cons]
            omega

theorem parallelRun_shape (E : Env) (lines : List (List Char)) :
    ∀ (w : World) (pcs : List Nat), ∃ cl : List (StrVec × Nat),
      (parallelRun E lines w pcs).1.trace = w.trace ++ launchTrace cl ∧
      (parallelRun E lines w pcs).2 = pcs ++ cl.map (fun c => c.2) ∧
      cl.map (fun c => c.1) = commandsOf lines ∧
      cl.map (fun c => c.2) = (List.range' w.forks cl.length).map E.pidOf ∧
      (parallelRun E lines w pcs).1.forks = w.forks + cl.length := by
  induction lines with
  | nil => intro w pcs; exact ⟨[], by simp [parallelRun, launchTrace, commandsOf_nil]⟩
  | cons l ls ih =>
    intro w pcs
    rw [parallelRun]
    cases hs : split l with
    | nil =>
      simp only
      rw [commandsOf_cons_skip l ls (Or.inl hs)]
      exact ih w pcs
    | cons w0 args =>
      simp only
      by_cases h1 : w0 = kwHash
      · rw [if_pos h1, commandsOf_cons_skip l ls (Or.inr (by simp [hs, h1]))]
        exact ih w pcs
      · rw [if_neg h1]
        by_cases h2 : w0 = kwExit
        · rw [if_pos h2, commandsOf_cons_exit l ls (by simp [hs, h2])]
          exact ⟨[], by simp [launchTrace]⟩
        · rw [if_neg h2, commandsOf_cons_command l ls w0 args hs h1 h2]
          obtain ⟨cl, htr, hpcs, hcmd, hpid, hforks⟩ :=
            ih (forkNexec E (cout w (Event.running (echo (w0 :: args)))) (w0 :: args)).1
              (pcs ++ [(forkNexec E (cout w (Event.running (echo (w0 :: args)))) (w0 :: args)).2])
          refine ⟨(w0 :: args, E.pidOf w.forks) :: cl, ?_, ?_, ?_, ?_, ?_⟩
          · rw [htr]
            simp [forkNexec, cout, launchTrace]
          · rw [hpcs]
            simp [forkNexec, cout]
          · simp [hcmd]
          · have hf : (forkNexec E (cout w (Event.running (echo (w0 :: args))))
                (w0 :: args)).1.forks = w.forks + 1 := rfl
            rw [hf] at hpid
            simp [List.range'_succ, hpid]
          · rw [hforks]
            have hf : (forkNexec E (cout w (Event.running (echo (w0 :: args))))
                (w0 :: args)).1.forks = w.forks + 1 := rfl
            rw [hf]
            simp only [List.length_cons]
            omega

theorem drain_shape (E : Env) (pcs : List Nat) :
    ∀ w : World, ∃ wl : List (Nat × Bool),
      (drain E pcs w).trace = w.trace ++ drainTrace E wl ∧
      wl.map (fun p => p.1) = pcs ∧
      (drain E pcs w).forks = w.forks := by
  induction pcs with
  | nil => intro w; exact ⟨[], by simp [drain, drainTrace]⟩
  | cons pc pcs ih =>
    intro w
    rw [drain]
    obtain ⟨wl, htr, hmap, hforks⟩ :=
      ih (cout (waitpid E w pc).1 (Event.exitCode (waitpid E w pc).2))
    refine ⟨(pc, decide (w.now < E.finishAt pc)) :: wl, ?_, ?_, ?_⟩
    · rw [htr]
      simp [waitpid, cout, drainTrace]
    · simp [hmap]
    · rw [hforks]
      rfl

/-! ## Reading the traces -/

theorem launched_append (a b : List Event) : launched (a ++ b) = launched a ++ launched b := by
  induction a with
  | nil => rfl
  | cons e rest ih => cases e <;> simp [launched, ih]

theorem launchedPids_append (a b : List Event) :
    launchedPids (a ++ b) = launchedPids a ++ launchedPids b := by
  induction a with
  | nil => rfl
  | cons e rest ih => cases e <;> simp [launchedPids, ih]

theorem waitedPids_append (a b : List Event) :
    waitedPids (a ++ b) = waitedPids a ++ waitedPids b := by
  induction a with
  | nil => rfl
  | cons e rest ih => cases e <;> simp [waitedPids, ih]

theorem output_append (a b : List Event) : output (a ++ b) = output a ++ output b := by
  induction a with
  | nil => rfl
  | cons e rest ih => cases e <;> simp [output, ih]

theorem launched_serialTrace (E : Env) (bl : List (StrVec × Nat × Bool)) :
    launched (serialTrace E bl) = bl.map (fun b => b.1) := by
  induction bl with
  | nil => rfl
  | cons b rest ih => simp [serialTrace, serialBlock, launched, ih]

theorem launchedPids_serialTrace (E : Env) (bl : List (StrVec × Nat × Bool)) :
    launchedPids (serialTrace E bl) = bl.map (fun b => b.2.1) := by
  induction bl with
  | nil => rfl
  | cons b rest ih => simp [serialTrace, serialBlock, launchedPids, ih]

theorem waitedPids_serialTrace (E : Env) (bl : List (StrVec × Nat × Bool)) :
    waitedPids (serialTrace E bl) = bl.map (fun b => b.2.1) := by
  induction bl with
  | nil => rfl
  | cons b rest ih => simp [serialTrace, serialBlock, waitedPids, ih]

theorem output_serialTrace (E : Env) (bl : List (StrVec × Nat × Bool)) :
    output (serialTrace E bl) = serialOutput E (bl.map (fun b => (b.1, b.2.1))) := by
  induction bl with
  | nil => rfl
  | cons b rest ih => simp [serialTrace, serialBlock, output, serialOutput, ih]

theorem prompt_not_mem_serialTrace (E : Env) (bl : List (StrVec × Nat × Bool)) :
    Event.prompt ∉ serialTrace E bl := by
  induction bl with
  | nil => simp [serialTrace]
  | cons b rest ih => simp [serialTrace, serialBlock, ih]

theorem launched_launchTrace (cl : List (StrVec × Nat)) :
    launched (launchTrace cl) = cl.map (fun c => c.1) := by
  induction cl with
  | nil => rfl
  | cons c rest ih => simp [launchTrace, launched, ih]

theorem launchedPids_launchTrace (cl : List (StrVec × Nat)) :
    launchedPids (launchTrace cl) = cl.map (fun c => c.2) := by
  induction cl with
  | nil => rfl
  | cons c rest ih => simp [launchTrace, launchedPids, ih]

theorem waitedPids_launchTrace (cl : List (StrVec × Nat)) : waitedPids (launchTrace cl) = [] := by
  induction cl with
  | nil => rfl
  | cons c rest ih => simp [launchTrace, waitedPids, ih]

theorem output_launchTrace (cl : List (StrVec × Nat)) :
    output (launchTrace cl) = cl.map (fun c => Event.running (echo c.1)) := by
  induction cl with
  | nil => rfl
  | cons c rest ih => simp [launchTrace, output, ih]

theorem prompt_not_mem_launchTrace (cl : List (StrVec × Nat)) :
    Event.prompt ∉ launchTrace cl := by
  induction cl with
  | nil => simp [launchTrace]
  | cons c rest ih => simp [launchTrace, ih]

theorem launched_drainTrace (E : Env) (wl : List (Nat × Bool)) :
    launched (drainTrace E wl) = [] := by
  induction wl with
  | nil => rfl
  | cons p rest ih => simp [drainTrace, launched, ih]

theorem launchedPids_drainTrace (E : Env) (wl : List (Nat × Bool)) :
    launchedPids (drainTrace E wl) = [] := by
  induction wl with
  | nil => rfl
  | cons p rest ih => simp [drainTrace, launchedPids, ih]

theorem waitedPids_drainTrace (E : Env) (wl : List (Nat × Bool)) :
    waitedPids (drainTrace E wl) = wl.map (fun p => p.1) := by
  induction wl with
  | nil => rfl
  | cons p rest ih => simp [drainTrace, waitedPids, ih]

theorem output_drainTrace (E : Env) (wl : List (Nat × Bool)) :
    output (drainTrace E wl)
      = (wl.map (fun p => p.1)).map (fun pid => Event.exitCode (E.rawStatus pid)) := by
  induction wl with
  | nil => rfl
  | cons p rest ih => simp [drainTrace, output, ih]

theorem prompt_not_mem_drainTrace (E : Env) (wl : List (Nat × Bool)) :
    Event.prompt ∉ drainTrace E wl := by
  induction wl with
  | nil => simp [drainTrace]
  | cons p rest ih => simp [drainTrace, ih]

theorem serialTrace_initial (E : Env) (bl : List (StrVec × Nat × Bool)) :
    ∀ pre : List Event, pre <+: serialTrace E bl →
      ∃ rest : List Nat, launchedPids pre = waitedPids pre ++ rest ∧ rest.length ≤ 1 := by
  induction bl with
  | nil =>
    intro pre h
    simp only [serialTrace, List.prefix_nil] at h
    subst h
    exact ⟨[], rfl, by simp⟩
  | cons b rest ih =>
    intro pre h
    simp only [serialTrace, serialBlock, List.cons_append, List.nil_append] at h
    rw [List.prefix_cons_iff] at h
    rcases h with h | ⟨t1, h, h1⟩
    · subst h; exact ⟨[], rfl, by simp⟩
    rw [List.prefix_cons_iff] at h1
    rcases h1 with h1 | ⟨t2, h1, h2⟩
    · subst h h1; exact ⟨[], rfl, by simp⟩
    rw [List.prefix_cons_iff] at h2
    rcases h2 with h2 | ⟨t3, h2, h3⟩
    · subst h h1 h2; exact ⟨[b.2.1], rfl, by simp⟩
    rw [List.prefix_cons_iff] at h3
    rcases h3 with h3 | ⟨t4, h3, h4⟩
    · subst h h1 h2 h3; exact ⟨[], by simp [launchedPids, waitedPids], by simp⟩
    obtain ⟨r, hr, hlen⟩ := ih t4 h4
    subst h h1 h2 h3
    exact ⟨r, by simp [launchedPids, waitedPids, hr], hlen⟩

/-! ## Serial and parallel runs of a stream -/

theorem processCmds_serial_trace (E : Env) (cinEof : Bool) (is : IStream) (w : World) :
    ∃ (w1 : World) (bl : List (StrVec × Nat × Bool)),
      processCmds E cinEof is false w = Except.ok w1 ∧
      w1.trace = w.trace ++ serialTrace E bl ∧
      bl.map (fun b => b.1) = commandsOf (if cinEof then [] else is.pending) ∧
      bl.map (fun b => b.2.1) = (List.range' w.forks bl.length).map E.pidOf ∧
      w1.forks = w.forks + bl.length := by
  obtain ⟨bl, h1, h2, h3, h4⟩ := serialRun_shape E (if cinEof then [] else is.pending) w
  exact ⟨_, bl, processCmds_serial_eq E cinEof is w, h1, h2, h3, h4⟩

theorem parallel_trace (E : Env) (cinEof : Bool) (is : IStream) (w : World) :
    ∃ (w1 : World) (cl : List (StrVec × Nat)) (wl : List (Nat × Bool)),
      parallel E cinEof is w = Except.ok w1 ∧
      w1.trace = w.trace ++ (launchTrace cl ++ drainTrace E wl) ∧
      wl.map (fun p => p.1) = cl.map (fun c => c.2) ∧
      cl.map (fun c => c.1) = commandsOf (if cinEof then [] else is.pending) ∧
      cl.map (fun c => c.2) = (List.range' w.forks cl.length).map E.pidOf ∧
      w1.forks = w.forks + cl.length := by
  obtain ⟨cl, h1, h2, h3, h4, h5⟩ :=
    parallelRun_shape E (if cinEof then [] else is.pending) w []
  obtain ⟨wl, g1, g2, g3⟩ :=
    drain_shape E (parallelRun E (if cinEof then [] else is.pending) w []).2
      (parallelRun E (if cinEof then [] else is.pending) w []).1
  refine ⟨_, cl, wl, parallel_eq E cinEof is w, ?_, ?_, h3, h4, ?_⟩
  · rw [g1, h1, List.append_assoc]
  · rw [g2, h2, List.nil_append]
  · rw [g3, h5]

/-- What every run of `processCmds` looks like, in either mode: it returns, no
prompt is printed, the commands launched are those of the lines read, the
children get the next identifiers, and the identifiers waited on are the
identifiers launched, in the same order. -/
theorem processCmds_trace (E : Env) (cinEof : Bool) (is : IStream) (parMode : Bool) (w : World) :
    ∃ (w1 : World) (tr : List Event),
      processCmds E cinEof is parMode w = Except.ok w1 ∧
      w1.trace = w.trace ++ tr ∧
      launched tr = commandsOf (if cinEof then [] else is.pending) ∧
      launchedPids tr = (List.range' w.forks (launched tr).length).map E.pidOf ∧
      waitedPids tr = launchedPids tr ∧
      Event.prompt ∉ tr ∧
      w1.forks = w.forks + (launched tr).length := by
  cases parMode with
  | false =>
    obtain ⟨w1, bl, h1, h2, h3, h4, h5⟩ := processCmds_serial_trace E cinEof is w
    refine ⟨w1, serialTrace E bl, h1, h2, ?_, ?_, ?_, prompt_not_mem_serialTrace E bl, ?_⟩
    · rw [launched_serialTrace, h3]
    · rw [launched_serialTrace, launchedPids_serialTrace, h4, List.length_map]
    · rw [waitedPids_serialTrace, launchedPids_serialTrace]
    · rw [launched_serialTrace, h5, List.length_map]
  | true =>
    obtain ⟨w1, cl, wl, h1, h2, h3, h4, h5, h6⟩ := parallel_trace E cinEof is w
    have hp : processCmds E cinEof is true w = Except.ok w1 := by
      rw [← h1]
      simp [processCmds]
    refine ⟨w1, launchTrace cl ++ drainTrace E wl, hp, h2, ?_, ?_, ?_, ?_, ?_⟩
    · rw [launched_append, launched_launchTrace, launched_drainTrace, List.append_nil, h4]
    · rw [launched_append, launchedPids_append, launched_launchTrace, launched_drainTrace,
        launchedPids_launchTrace, launchedPids_drainTrace, List.append_nil, List.append_nil,
        h5, List.length_map]
    · rw [waitedPids_append, launchedPids_append, waitedPids_launchTrace, waitedPids_drainTrace,
        launchedPids_launchTrace, launchedPids_drainTrace, List.append_nil, List.nil_append, h3]
    · simp [prompt_not_mem_launchTrace, prompt_not_mem_drainTrace]
    · rw [launched_append, launched_launchTrace, launched_drainTrace, List.append_nil, h6,
        List.length_map]

/-- C1: parallel mode, for every script, every machine and so every order in which
the children terminate (`E.finishAt` is arbitrary): the run returns and its
output is all the `Running: ` lines of the launched commands followed by all
the `Exit code: ` lines, the i-th of which reports the status of the i-th
launched child. -/
theorem parallel_running_then_exit_codes (E : Env) (cinEof : Bool) (script : List Char)
    (w : World) :
    ∃ (w1 : World) (tr : List Event),
      parallel E cinEof (IStream.ofText script) w = Except.ok w1 ∧
      w1.trace = w.trace ++ tr ∧
      launched tr = commandsOf (if cinEof then [] else textLines script) ∧
      launchedPids tr = (List.range' w.forks (launched tr).length).map E.pidOf ∧
      output tr = (launched tr).map (fun c => Event.running (echo c))
        ++ (launchedPids tr).map (fun pid => Event.exitCode (E.rawStatus pid)) := by
  obtain ⟨w1, cl, wl, h1, h2, h3, h4, h5, _⟩ :=
    parallel_trace E cinEof (IStream.ofText script) w
  rw [pending_ofText] at h4
  refine ⟨w1, launchTrace cl ++ drainTrace E wl, h1, h2, ?_, ?_, ?_⟩
  · rw [launched_append, launched_launchTrace, launched_drainTrace, List.append_nil, h4]
  · rw [launched_append, launchedPids_append, launched_launchTrace, launched_drainTrace,
      launchedPids_launchTrace, launchedPids_drainTrace, List.append_nil, List.append_nil,
      h5, List.length_map]
  · rw [output_append, output_launchTrace, output_drainTrace, launched_append,
      launchedPids_append, launched_launchTrace, launched_drainTrace, launchedPids_launchTrace,
      launchedPids_drainTrace, List.append_nil, List.append_nil, h3, List.map_map,
      List.map_map]
    rfl

/-- C2: serial mode, for every script: the run returns, its output is the strict
alternation `Running: ` line, `Exit code: ` line of the launched commands in
order, and at every point of the trace the identifiers launched so far are
those waited on so far followed by at most one more. -/
theorem serial_strict_alternation (E : Env) (cinEof : Bool) (script : List Char) (w : World) :
    ∃ (w1 : World) (tr : List Event),
      processCmds E cinEof (IStream.ofText script) false w = Except.ok w1 ∧
      w1.trace = w.trace ++ tr ∧
      launched tr = commandsOf (if cinEof then [] else textLines script) ∧
      (launchedPids tr).length = (launched tr).length ∧
      output tr = serialOutput E (List.zip (launched tr) (launchedPids tr)) ∧
      ∀ pre : List Event, pre <+: tr →
        ∃ rest : List Nat, launchedPids pre = waitedPids pre ++ rest ∧ rest.length ≤ 1 := by
  obtain ⟨w1, bl, h1, h2, h3, _, _⟩ :=
    processCmds_serial_trace E cinEof (IStream.ofText script) w
  rw [pending_ofText] at h3
  refine ⟨w1, serialTrace E bl, h1, h2, ?_, ?_, ?_, serialTrace_initial E bl⟩
  · rw [launched_serialTrace, h3]
  · rw [launched_serialTrace, launchedPids_serialTrace, List.length_map, List.length_map]
  · rw [output_serialTrace, launched_serialTrace, launchedPids_serialTrace, List.zip_map']

/-- C3: for every script and both modes, on a machine that hands out pairwise
distinct process identifiers, `processCmds` returns and the identifiers waited
on are a permutation of the identifiers launched, none of them twice. -/
theorem processCmds_waits_each_launch_once (E : Env) (hinj : Function.Injective E.pidOf)
    (cinEof : Bool) (script : List Char) (parMode : Bool) (w : World) :
    ∃ (w1 : World) (tr : List Event),
      processCmds E cinEof (IStream.ofText script) parMode w = Except.ok w1 ∧
      w1.trace = w.trace ++ tr ∧
      (waitedPids tr).Perm (launchedPids tr) ∧
      (waitedPids tr).Nodup ∧ (launchedPids tr).Nodup := by
  obtain ⟨w1, tr, h1, h2, _, h4, h5, _, _⟩ :=
    processCmds_trace E cinEof (IStream.ofText script) parMode w
  have hnd : (launchedPids tr).Nodup := by
    rw [h4]
    exact (List.nodup_range' _ _).map hinj
  refine ⟨w1, tr, h1, h2, ?_, ?_, hnd⟩
  · rw [h5]
  · rw [h5]
    exact hnd

/-- C4: for every script, in serial and in parallel mode (standard input not at its
end, as whenever `main` runs a file), `processCmds` returns and the commands
launched are exactly, in order, the word lists of the lines before the first
line whose first word is `exit` that have a word and do not start with `#`.
Lines whose first word is `SERIAL` or `PARALLEL` need not be excluded. -/
theorem processCmds_launches_commands_before_exit (E : Env) (script : List Char)
    (parMode : Bool) (w : World) :
    ∃ (w1 : World) (tr : List Event),
      processCmds E false (IStream.ofText script) parMode w = Except.ok w1 ∧
      w1.trace = w.trace ++ tr ∧
      launched tr = commandsOf (textLines script) := by
  obtain ⟨w1, tr, h1, h2, h3, _⟩ :=
    processCmds_trace E false (IStream.ofText script) parMode w
  rw [pending_ofText] at h3
  exact ⟨w1, tr, h1, h2, by simpa using h3⟩

/-! ## The driver -/

theorem mainLoop_eq (E : Env) (fs : Files) (fuel : Nat) :
    ∀ (cin : IStream) (w : World), cin.pendingComplete.length < fuel →
      mainLoop E fs fuel cin w = mainRun E fs cin.pendingComplete w := by
  induction fuel with
  | zero => intro cin w h; omega
  | succ fuel ih =>
    intro cin w h
    cases hp : cin.pendingComplete with
    | nil =>
      have hf := getline_pendingComplete_nil cin hp
      simp only [mainLoop, hf, if_true, mainRun]
    | cons l ls =>
      obtain ⟨hl, hf, he, hrest⟩ := getline_pendingComplete_cons cin l ls hp
      have hlen : (getline cin).1.pendingComplete.length < fuel := by
        rw [hrest]
        rw [hp] at h
        simp only [List.length_cons] at h
        omega
      simp only [mainLoop, hf, he, Bool.or_self, Bool.false_eq_true, if_false, hl]
      rw [mainRun]
      cases hflow : flow E fs false (split l) (cout w Event.prompt) with
      | error f => rfl
      | ok r =>
        obtain ⟨w1, status⟩ := r
        simp only
        by_cases h1 : status = 1
        · simp only [if_pos h1, ih _ _ hlen, hrest]
        · simp only [if_neg h1]
          by_cases h2 : status = 2
          · simp only [if_pos h2]
          · simp only [if_neg h2]
            by_cases h3 : status = 3
            · simp only [if_pos h3, ih _ _ hlen, hrest]
            · simp only [if_neg h3, ih _ _ hlen, hrest, runOne]

theorem main_eq (E : Env) (fs : Files) (stdin : List Char) :
    main E fs stdin = mainRun E fs (completeLines stdin) World.init := by
  have hp : (IStream.ofText stdin).pendingComplete = completeLines stdin := by
    simp [IStream.pendingComplete, IStream.ofText]
  have hlen : (IStream.ofText stdin).pendingComplete.length < stdin.length + 2 := by
    have := pendingComplete_length (IStream.ofText stdin)
    simp only [IStream.ofText] at this ⊢
    omega
  unfold main
  rw [mainLoop_eq E fs _ _ _ hlen, hp]

theorem flow_nil (E : Env) (fs : Files) (cinEof : Bool) (w : World) :
    flow E fs cinEof [] w = Except.ok (w, 1) := by
  simp [flow]

theorem flow_hash (E : Env) (fs : Files) (cinEof : Bool) (args : StrVec) (w : World) :
    flow E fs cinEof (kwHash :: args) w = Except.ok (w, 1) := by
  simp [flow, readAt]

theorem flow_exit (E : Env) (fs : Files) (cinEof : Bool) (args : StrVec) (w : World) :
    flow E fs cinEof (kwExit :: args) w = Except.ok (w, 2) := by
  have : kwExit ≠ kwHash := by decide
  simp [flow, readAt, this]

theorem flow_literal (E : Env) (fs : Files) (cinEof : Bool) (w0 : Token) (args : StrVec)
    (w : World) (h : isLiteral (w0 :: args) = true) :
    flow E fs cinEof (w0 :: args) w = Except.ok (w, 0) := by
  simp only [isLiteral, decide_eq_true_eq] at h
  simp [flow, readAt, h.1, h.2.1, h.2.2.1, h.2.2.2]

theorem flow_file (E : Env) (fs : Files) (cinEof : Bool) (par : Bool) (name : Token)
    (extra : StrVec) (w : World) :
    flow E fs cinEof ((if par then kwParallel else kwSerial) :: name :: extra) w
      = match processCmds E cinEof (ifstream fs name) par w with
        | Except.error f => Except.error f
        | Except.ok w1 => Except.ok (w1, 3) := by
  have h1 : kwSerial ≠ kwHash := by decide
  have h2 : kwSerial ≠ kwExit := by decide
  have h3 : kwParallel ≠ kwHash := by decide
  have h4 : kwParallel ≠ kwExit := by decide
  have h5 : kwParallel ≠ kwSerial := by decide
  cases par with
  | false => simp [flow, readAt, h1, h2]
  | true => simp [flow, readAt, h3, h4, h5]

theorem flow_file_alone (E : Env) (fs : Files) (cinEof : Bool) (par : Bool) (w : World) :
    flow E fs cinEof [if par then kwParallel else kwSerial] w
      = Except.error (Fault.outOfRange 1 1) := by
  have h1 : kwSerial ≠ kwHash := by decide
  have h2 : kwSerial ≠ kwExit := by decide
  have h3 : kwParallel ≠ kwHash := by decide
  have h4 : kwParallel ≠ kwExit := by decide
  cases par with
  | false => simp [flow, readAt, h1, h2]
  | true => simp [flow, readAt, h3, h4]

theorem serialBlock_segment (E : Env) (l : List Char) (pid : Nat) (blocked : Bool) :
    LineSegment E l (serialBlock E (split l, pid, blocked)) := by
  refine ⟨by simp [serialBlock], by simp [serialBlock, waitedPids, launchedPids], ?_⟩
  intro _
  exact ⟨pid, blocked, rfl⟩

theorem mainRun_shape (E : Env) (fs : Files) (lines : List (List Char)) :
    ∀ w : World,
      (∀ l ∈ lines.takeWhile (fun l => decide ((split l).head? ≠ some kwExit)),
        split l ≠ [kwSerial] ∧ split l ≠ [kwParallel]) →
      ∃ (w1 : World) (segs : List (List Event)),
        mainRun E fs lines w = Except.ok w1 ∧
        List.Forall₂ (LineSegment E)
          (lines.takeWhile (fun l => decide ((split l).head? ≠ some kwExit))) segs ∧
        w1.trace = w.trace ++ promptedTrace segs := by
  induction lines with
  | nil =>
    intro w _
    exact ⟨cout w Event.prompt, [], rfl, List.Forall₂.nil, rfl⟩
  | cons l ls ih =>
    intro w h
    by_cases hexit : (split l).head? = some kwExit
    · -- the `exit` line ends the loop
      have htw : (l :: ls).takeWhile (fun l => decide ((split l).head? ≠ some kwExit)) = [] := by
        simp [List.takeWhile_cons, hexit]
      rw [htw]
      cases hs : split l with
      | nil => simp [hs] at hexit
      | cons w0 args =>
        have hw0 : w0 = kwExit := by simpa [hs] using hexit
        refine ⟨cout w Event.prompt, [], ?_, List.Forall₂.nil, rfl⟩
        rw [mainRun, hs, hw0, flow_exit]
        simp
    · have htw : (l :: ls).takeWhile (fun l => decide ((split l).head? ≠ some kwExit))
          = l :: ls.takeWhile (fun l => decide ((split l).head? ≠ some kwExit)) := by
        simp [List.takeWhile_cons, hexit]
      rw [htw] at h ⊢
      have hl := h l (List.mem_cons_self _ _)
      have hrest : ∀ l2 ∈ ls.takeWhile (fun l => decide ((split l).head? ≠ some kwExit)),
          split l2 ≠ [kwSerial] ∧ split l2 ≠ [kwParallel] :=
        fun l2 h2 => h l2 (List.mem_cons_of_mem _ h2)
      have cont : ∀ (w2 : World) (seg : List Event),
          w2.trace = w.trace ++ Event.prompt :: seg → LineSegment E l seg →
          ∃ (w1 : World) (segs : List (List Event)),
            mainRun E fs ls w2 = Except.ok w1 ∧
            List.Forall₂ (LineSegment E)
              (l :: ls.takeWhile (fun l => decide ((split l).head? ≠ some kwExit))) segs ∧
            w1.trace = w.trace ++ promptedTrace segs := by
        intro w2 seg htr hseg
        obtain ⟨w1, segs, hrun, hall, htr1⟩ := ih w2 hrest
        refine ⟨w1, seg :: segs, hrun, List.Forall₂.cons hseg hall, ?_⟩
        rw [htr1, htr]
        simp [promptedTrace]
      have hempty : LineSegment E l [] → ∃ (w1 : World) (segs : List (List Event)),
            mainRun E fs ls (cout w Event.prompt) = Except.ok w1 ∧
            List.Forall₂ (LineSegment E)
              (l :: ls.takeWhile (fun l => decide ((split l).head? ≠ some kwExit))) segs ∧
            w1.trace = w.trace ++ promptedTrace segs :=
        fun hseg => cont (cout w Event.prompt) [] rfl hseg
      rw [mainRun]
      cases hs : split l with
      | nil =>
        rw [flow_nil]
        simp only [if_true]
        exact hempty ⟨by simp, rfl, by simp [hs, isLiteral]⟩
      | cons w0 args =>
        have hne : w0 ≠ kwExit := by simpa [hs] using hexit
        by_cases hhash : w0 = kwHash
        · rw [hhash, flow_hash]
          simp only [if_true]
          exact hempty ⟨by simp, rfl, by simp [hs, isLiteral, hhash]⟩
        · by_cases hfile : w0 = kwSerial ∨ w0 = kwParallel
          · -- commands run from a file
            obtain ⟨par, hpar⟩ : ∃ par : Bool, w0 = if par then kwParallel else kwSerial := by
              rcases hfile with h1 | h1
              · exact ⟨false, by simp [h1]⟩
              · exact ⟨true, by simp [h1]⟩
            cases args with
            | nil =>
              exfalso
              rcases hfile with h1 | h1
              · exact hl.1 (by rw [hs, h1])
              · exact hl.2 (by rw [hs, h1])
            | cons name extra =>
              obtain ⟨w2, tr, hrun, htr, _, _, hwait, hprompt, _⟩ :=
                processCmds_trace E false (ifstream fs name) par (cout w Event.prompt)
              rw [hpar, flow_file, hrun]
              have e1 : ¬ ((3 : Int) = 1) := by decide
              have e2 : ¬ ((3 : Int) = 2) := by decide
              simp only [if_neg e1, if_neg e2, if_true]
              refine cont w2 tr ?_ ⟨hprompt, hwait, ?_⟩
              · rw [htr]
                simp [cout]
              · intro hlit
                rw [hs] at hlit
                simp only [isLiteral, decide_eq_true_eq] at hlit
                rcases hfile with h1 | h1
                · exact absurd h1 hlit.2.2.1
                · exact absurd h1 hlit.2.2.2
          · -- a command typed directly
            have hlit : isLiteral (w0 :: args) = true := by
              simp only [isLiteral, decide_eq_true_eq]
              exact ⟨hhash, hne, fun h1 => hfile (Or.inl h1), fun h1 => hfile (Or.inr h1)⟩
            rw [flow_literal E fs false w0 args _ hlit]
            have e1 : ¬ ((0 : Int) = 1) := by decide
            have e2 : ¬ ((0 : Int) = 2) := by decide
            have e3 : ¬ ((0 : Int) = 3) := by decide
            simp only [if_neg e1, if_neg e2, if_neg e3]
            refine cont _ _ ?_ (hs ▸ serialBlock_segment E l
              (E.pidOf (cout w Event.prompt).forks)
              (decide ((cout w Event.prompt).now
                < E.finishAt (E.pidOf (cout w Event.prompt).forks))))
            rw [runOne_trace]
            simp [cout]

/-- The text of a `Running: ` line is the words joined by single blanks, without a
blank after the last word. -/
theorem echoFrom_eq_intercalate (size : Nat) (words : StrVec) :
    ∀ count : Nat, count + words.length = size →
      echoFrom size count words = [space].intercalate words := by
  induction words with
  | nil => intro count _; rfl
  | cons word rest ih =>
    intro count h
    simp only [List.length_cons] at h
    cases rest with
    | nil =>
      have : count = size - 1 := by simp at h; omega
      simp [echoFrom, this, List.intercalate]
    | cons u rest2 =>
      have hne : count ≠ size - 1 := by simp only [List.length_cons] at h; omega
      have := ih (count + 1) (by simp only [List.length_cons] at h ⊢; omega)
      rw [echoFrom, if_pos hne, this]
      simp [List.intercalate, List.intersperse]

theorem echo_eq_intercalate (words : StrVec) : echo words = [space].intercalate words :=
  echoFrom_eq_intercalate words.length words 0 (by simp)

/-- A script with `exit` on its third line: only the first two lines run, in either
mode, whatever follows. -/
theorem exit_on_third_line_example :
    commandsOf (textLines "ls -l\npwd\nexit\ndate\nwho\n".toList)
      = [["ls".toList, "-l".toList], ["pwd".toList]] ∧
    (processCmds Env.test false (IStream.ofText "ls -l\npwd\nexit\ndate\nwho\n".toList)
        false World.init).map (fun w => launched w.trace)
      = Except.ok [["ls".toList, "-l".toList], ["pwd".toList]] ∧
    (processCmds Env.test false (IStream.ofText "ls -l\npwd\nexit\ndate\nwho\n".toList)
        true World.init).map (fun w => launched w.trace)
      = Except.ok [["ls".toList, "-l".toList], ["pwd".toList]] := by
  decide

/-! ## The remaining claims -/

/-- Witness of C3: the test machine hands out distinct identifiers; a script of two
commands and an `exit` line, run in parallel mode. -/
theorem processCmds_waits_each_launch_once_witness :
    Function.Injective Env.test.pidOf ∧
    ∃ (w1 : World) (tr : List Event),
      processCmds Env.test false (IStream.ofText "ls\nfalse\nexit\npwd\n".toList) true World.init
        = Except.ok w1 ∧
      w1.trace = World.init.trace ++ tr ∧
      (waitedPids tr).Perm (launchedPids tr) ∧
      (waitedPids tr).Nodup ∧ (launchedPids tr).Nodup :=
  ⟨fun a b h => by simpa [Env.test] using h,
    processCmds_waits_each_launch_once Env.test (fun a b h => by simpa [Env.test] using h)
      false "ls\nfalse\nexit\npwd\n".toList true World.init⟩

/-- C5, as stated, fails: the line `SERIAL nested.txt` of a script run by
`processCmds` is echoed and launched as a command named `SERIAL`; the file
`nested.txt`, which exists and holds the command `pwd`, is not read. -/
theorem processCmds_nested_serial_counterexample :
    Files.test "nested.txt".toList = some "pwd\n".toList ∧
    processCmds Env.test false (IStream.ofText "SERIAL nested.txt\n".toList) false World.init
      = Except.ok ⟨1, 900,
          [Event.running "SERIAL nested.txt".toList,
            Event.launch 100 ["SERIAL".toList, "nested.txt".toList],
            Event.wait 100 true,
            Event.exitCode 1]⟩ := by
  decide

/-- C5, amended: a line `SERIAL <file>` or `PARALLEL <file>` is a sub-run only when
the driver loop hands it to `flow`: then `flow` returns kind 3 after every
command of the file has been launched and waited on, without a prompt in
between, so before the next line of standard input is read. In a script run by
`processCmds` such a line, when it comes before the first `exit` line, is
launched as a command like any other line. -/
theorem subrun_only_from_driver (E : Env) (fs : Files) (par : Bool) (name : Token)
    (extra : StrVec) (script : List Char) (parMode : Bool) (w : World) :
    (∃ (w1 : World) (tr : List Event),
      flow E fs false ((if par then kwParallel else kwSerial) :: name :: extra) w
        = Except.ok (w1, 3) ∧
      w1.trace = w.trace ++ tr ∧
      launched tr = commandsOf (ifstream fs name).pending ∧
      waitedPids tr = launchedPids tr ∧
      Event.prompt ∉ tr) ∧
    (∃ (w1 : World) (tr : List Event),
      processCmds E false (IStream.ofText script) parMode w = Except.ok w1 ∧
      w1.trace = w.trace ++ tr ∧
      ∀ ws ∈ ((textLines script).map split).takeWhile
          (fun ws => decide (ws.head? ≠ some kwExit)),
        ws.head? = some kwSerial ∨ ws.head? = some kwParallel → ws ∈ launched tr) := by
  constructor
  · obtain ⟨w1, tr, hrun, htr, hcmd, _, hwait, hprompt, _⟩ :=
      processCmds_trace E false (ifstream fs name) par w
    refine ⟨w1, tr, ?_, htr, by simpa using hcmd, hwait, hprompt⟩
    rw [flow_file, hrun]
  · obtain ⟨w1, tr, hrun, htr, hcmd, _⟩ :=
      processCmds_trace E false (IStream.ofText script) parMode w
    rw [pending_ofText] at hcmd
    refine ⟨w1, tr, hrun, htr, ?_⟩
    intro ws hws hkw
    have h1 : kwSerial ≠ kwHash := by decide
    have h2 : kwParallel ≠ kwHash := by decide
    simp only [Bool.false_eq_true, if_false] at hcmd
    rw [hcmd, commandsOf, List.mem_filter]
    refine ⟨hws, ?_⟩
    rcases hkw with h | h
    · cases ws with
      | nil => simp at h
      | cons w0 args => simp at h; simp [h, h1]
    · cases ws with
      | nil => simp at h
      | cons w0 args => simp at h; simp [h, h2]

/-- C7, the code at the failing input: in parallel mode the command `false`, whose
child terminates normally with exit code 1 (status word 256), gets the line
`Exit code: 256`, the status word itself; decoding the word gives 1, which is
what the serial run of the same script prints when `ChildProcess::wait`
decodes. -/
theorem parallel_prints_raw_status_word :
    Env.test.rawStatus (Env.test.pidOf 0) = 256 * 1 ∧
    WEXITSTATUS (256 * 1) = 1 ∧
    parallel Env.test false (IStream.ofText "false\n".toList) World.init
      = Except.ok ⟨1, 900,
          [Event.running "false".toList, Event.launch 100 ["false".toList],
            Event.wait 100 true, Event.exitCode 256]⟩ ∧
    processCmds Env.test false (IStream.ofText "false\n".toList) false World.init
      = Except.ok ⟨1, 900,
          [Event.running "false".toList, Event.launch 100 ["false".toList],
            Event.wait 100 true, Event.exitCode 1]⟩ := by
  decide

/-- C9, as stated, fails: standard input holding the single command line `ls`
without a final newline. The line is a literal command, yet `main` prints one
prompt and returns without launching anything. -/
theorem main_unterminated_last_line_counterexample :
    textLines "ls".toList = ["ls".toList] ∧
    isLiteral (split "ls".toList) = true ∧
    main Env.test Files.test "ls".toList = Except.ok ⟨0, 0, [Event.prompt]⟩ ∧
    main Env.test Files.test "ls\n".toList
      = Except.ok ⟨1, 900,
          [Event.prompt, Event.running "ls".toList, Event.launch 100 ["ls".toList],
            Event.wait 100 true, Event.exitCode 1, Event.prompt]⟩ := by
  decide

/-- C9, amended: for every standard input in which no handled line is the single
word `SERIAL` or `PARALLEL`, `main` returns and its trace is, for each
newline-terminated line before the first `exit` line in order, a prompt
followed by the segment of that line, then a last prompt; the segment of a
literal command line is its echo, its launch, the wait for it and its exit
code, and in every segment all identifiers launched are waited on. A last line
without a newline is not handled. -/
theorem main_runs_terminated_command_lines (E : Env) (fs : Files) (stdin : List Char)
    (h : ∀ l ∈ driverLines stdin, split l ≠ [kwSerial] ∧ split l ≠ [kwParallel]) :
    ∃ (w1 : World) (segs : List (List Event)),
      main E fs stdin = Except.ok w1 ∧
      List.Forall₂ (LineSegment E) (driverLines stdin) segs ∧
      w1.trace = promptedTrace segs := by
  obtain ⟨w1, segs, hrun, hall, htr⟩ := mainRun_shape E fs (completeLines stdin) World.init h
  refine ⟨w1, segs, ?_, hall, ?_⟩
  · rw [main_eq, hrun]
  · rw [htr]
    rfl

/-- Witness of C9 amended: a command, a comment, a file run serially, `exit`, and a
line after it. -/
theorem main_runs_terminated_command_lines_witness :
    (∀ l ∈ driverLines "ls\n# note\nSERIAL cmds.txt\nexit\npwd\n".toList,
      split l ≠ [kwSerial] ∧ split l ≠ [kwParallel]) ∧
    ∃ (w1 : World) (segs : List (List Event)),
      main Env.test Files.test "ls\n# note\nSERIAL cmds.txt\nexit\npwd\n".toList = Except.ok w1 ∧
      List.Forall₂ (LineSegment Env.test)
        (driverLines "ls\n# note\nSERIAL cmds.txt\nexit\npwd\n".toList) segs ∧
      w1.trace = promptedTrace segs :=
  ⟨by decide,
    main_runs_terminated_command_lines Env.test Files.test
      "ls\n# note\nSERIAL cmds.txt\nexit\npwd\n".toList (by decide)⟩

/-- C10, the code at the failing input: on the one-word lists `SERIAL` and
`PARALLEL`, `flow` reads `words[1]` of a vector of size 1; the line `SERIAL`
typed at the prompt takes `main` there. -/
theorem flow_reads_second_word_out_of_range (E : Env) (fs : Files) (cinEof : Bool) (w : World) :
    flow E fs cinEof [kwSerial] w = Except.error (Fault.outOfRange 1 1) ∧
    flow E fs cinEof [kwParallel] w = Except.error (Fault.outOfRange 1 1) ∧
    split "SERIAL".toList = [kwSerial] ∧
    main E fs "SERIAL\n".toList = Except.error (Fault.outOfRange 1 1) := by
  refine ⟨flow_file_alone E fs cinEof false w, flow_file_alone E fs cinEof true w, by decide, ?_⟩
  rfl

end Shell
